import Mathlib

/-!
# Verification of the ai-draw-io dependency-inference engine

Shallow embedding of the rule-based dependency-analysis pipeline from
`src/cli/analyze-dependencies.ts` (which contains two near-duplicate
implementations: the CLI copy and the exported library copy), the
directory walker, and the upload-side path filter from
`src/components/code-upload.tsx`.

Strings are modelled as Lean `String` (lists of characters); the
JavaScript regular expressions used by the extraction rules are embedded
by a small backtracking matcher whose segment lists transcribe the
regex literals one construct at a time.  `String.prototype.localeCompare`
is a host-collation-dependent builtin, so the sorting steps take the
collator as an explicit parameter `lc : String → String → Int`.
-/

namespace AiDrawIo

/-! ## Basic string helpers (List Char level) -/

/-- Boolean prefix test on character lists (JS `String.prototype.startsWith`). -/
def isPrefixB : List Char → List Char → Bool
  | [], _ => true
  | _ :: _, [] => false
  | a :: as, b :: bs => a == b && isPrefixB as bs

/-- Boolean infix test on character lists (JS `String.prototype.includes`). -/
def isInfixB (n : List Char) : List Char → Bool
  | [] => isPrefixB n []
  | h :: t => isPrefixB n (h :: t) || isInfixB n t

/-- Boolean suffix test on character lists (JS `String.prototype.endsWith`). -/
def isSuffixB (n h : List Char) : Bool :=
  isPrefixB n.reverse h.reverse

/-- JS `path.includes(pat)`. -/
def strIncludes (s pat : String) : Bool := isInfixB pat.data s.data

/-- JS `path.startsWith(pat)`. -/
def strStartsWith (s pat : String) : Bool := isPrefixB pat.data s.data

/-- JS `name.endsWith(pat)`. -/
def strEndsWith (s pat : String) : Bool := isSuffixB pat.data s.data

/-- JS `String.prototype.toLowerCase` (character-wise lowering). -/
def strToLower (s : String) : String := String.mk (s.data.map Char.toLower)

/-- Accumulator for `splitOnSlash`. -/
def splitOnSlashAux : List Char → List Char → List String
  | [], acc => [String.mk acc.reverse]
  | c :: cs, acc =>
      if c == '/' then String.mk acc.reverse :: splitOnSlashAux cs []
      else splitOnSlashAux cs (c :: acc)

/-- JS `path.split("/")` (`"" ↦ [""]`, separators at the ends produce
empty segments, exactly as `String.prototype.split`). -/
def splitOnSlash (s : String) : List String := splitOnSlashAux s.data []

/-- `s.replace(/suf$/, "")`: strip the suffix `suf` once, when present. -/
def replaceSuffixOnce (suf : String) (s : String) : String :=
  if isSuffixB suf.data s.data then
    String.mk (s.data.take (s.data.length - suf.data.length))
  else s

/-! ## Character classes of the regex literals -/

/-- JS `\w` = `[A-Za-z0-9_]`. -/
def isWordCh (c : Char) : Bool :=
  ('a' ≤ c && c ≤ 'z') || ('A' ≤ c && c ≤ 'Z') || ('0' ≤ c && c ≤ '9') || c == '_'

/-- JS `\s` (the whitespace characters relevant to source text). -/
def isSpaceCh (c : Char) : Bool :=
  c == ' ' || c == '\t' || c == '\n' || c == '\r' || c == '\x0b' || c == '\x0c'

/-- JS `[\w.]`. -/
def isWordDotCh (c : Char) : Bool := isWordCh c || c == '.'

/-- JS `/^[A-Z]/`-style ASCII uppercase test for a single character. -/
def isUpperAscii (c : Char) : Bool := 'A' ≤ c && c ≤ 'Z'

/-! ## A small backtracking regex engine

Each extraction regex of the source has exactly one capture group, so a
pattern is given as three segment lists `pre`, `cap`, `post`; the
captured text is whatever the `cap` segments consume.  `matchSegs`
returns, in backtracking priority order, every suffix that can remain
after the segments match a prefix of the input — composing the outcome
lists with nested first-success search reproduces the JS backtracking
order (greedy `+`/`*`/`?` longest-first, lazy `{0,n}?` shortest-first).
-/

inductive Seg where
  /-- a literal string -/
  | lit (s : String)
  /-- greedy `c+` for a character class -/
  | plus (p : Char → Bool)
  /-- greedy `c*` for a character class -/
  | star (p : Char → Bool)
  /-- greedy `c?` for a single character -/
  | opt (c : Char)
  /-- lazy bounded gap `[\s\S]{0,n}?` -/
  | lazyGap (n : Nat)
  /-- ordered literal alternation `(?:a|b|…)` -/
  | alts (ss : List String)

/-- Longest-first list of split sizes `[k, k-1, …, 1]`. -/
def downFrom (k : Nat) : List Nat := (List.range k).map (fun i => k - i)

/-- Number of leading characters satisfying `p`. -/
def countLeading (p : Char → Bool) : List Char → Nat
  | [] => 0
  | c :: cs => if p c then countLeading p cs + 1 else 0

/-- All suffixes remaining after `segs` match a prefix of the input,
in backtracking priority order. -/
def matchSegs : List Seg → List Char → List (List Char)
  | [], s => [s]
  | Seg.lit t :: rest, s =>
      if isPrefixB t.data s then matchSegs rest (s.drop t.data.length) else []
  | Seg.plus p :: rest, s =>
      (downFrom (countLeading p s)).flatMap (fun k => matchSegs rest (s.drop k))
  | Seg.star p :: rest, s =>
      ((downFrom (countLeading p s)) ++ [0]).flatMap (fun k => matchSegs rest (s.drop k))
  | Seg.opt c :: rest, s =>
      (match s with
        | [] => []
        | c' :: s' => if c' == c then matchSegs rest s' else []) ++ matchSegs rest s
  | Seg.lazyGap n :: rest, s =>
      (List.range (min n s.length + 1)).flatMap (fun k => matchSegs rest (s.drop k))
  | Seg.alts ss :: rest, s =>
      ss.flatMap (fun t =>
        if isPrefixB t.data s then matchSegs rest (s.drop t.data.length) else [])

/-- First success of `f` over a list, in order. -/
def firstSome {α β : Type} (f : α → Option β) : List α → Option β
  | [] => none
  | a :: as => match f a with
      | some b => some b
      | none => firstSome f as

/-- A single regex pattern: segments before, inside, and after the capture. -/
structure Pat where
  pre : List Seg
  cap : List Seg
  post : List Seg

/-- Try to match `p` anchored at the start of `s`; on success return the
captured text together with the suffix after the whole match. -/
def tryHere (p : Pat) (s : List Char) : Option (String × List Char) :=
  firstSome (fun r1 =>
    firstSome (fun r2 =>
      match matchSegs p.post r2 with
      | [] => none
      | r3 :: _ => some (String.mk (r1.take (r1.length - r2.length)), r3))
      (matchSegs p.cap r1))
    (matchSegs p.pre s)

/-- Leftmost match of `p` in `s` (the JS regex scan over start positions). -/
def firstMatch (p : Pat) : List Char → Option (String × List Char)
  | [] => tryHere p []
  | c :: cs => match tryHere p (c :: cs) with
      | some r => some r
      | none => firstMatch p cs

/-- The global `while ((m = re.exec(content)) !== null)` loop: captures of
successive non-overlapping matches, continuing after each match end.
All embedded patterns begin with a non-empty literal, so every match
consumes at least one character and fuel `s.length + 1` is sufficient. -/
def execAllFuel (p : Pat) : Nat → List Char → List String
  | 0, _ => []
  | fuel + 1, s =>
      match firstMatch p s with
      | none => []
      | some (cap, rest) => cap :: execAllFuel p fuel rest

/-- All captures of the global regex `p` over `content`. -/
def execAll (p : Pat) (content : String) : List String :=
  execAllFuel p (content.data.length + 1) content.data

/-! ## The regex literals of `analyze-dependencies.ts` -/

/-- `/@Provides[\s\S]{0,200}?public\s+(\w+(?:Client|Service|Lambda|Authority))\s+\w+/g` -/
def providesPat : Pat where
  pre := [Seg.lit "@Provides", Seg.lazyGap 200, Seg.lit "public", Seg.plus isSpaceCh]
  cap := [Seg.plus isWordCh, Seg.alts ["Client", "Service", "Lambda", "Authority"]]
  post := [Seg.plus isSpaceCh, Seg.plus isWordCh]

/-- `/new\s+ClientBuilder\(\)[\s\S]{0,100}?\.remoteOf\((\w+)\.class\)/g` -/
def clientBuilderPat : Pat where
  pre := [Seg.lit "new", Seg.plus isSpaceCh, Seg.lit "ClientBuilder()",
          Seg.lazyGap 100, Seg.lit ".remoteOf("]
  cap := [Seg.plus isWordCh]
  post := [Seg.lit ".class)"]

/-- `/import\s+[\w.]+\.(\w+(?:Client|Service|Lambda|Authority))\s*;/g` (CLI copy). -/
def importPatCli : Pat where
  pre := [Seg.lit "import", Seg.plus isSpaceCh, Seg.plus isWordDotCh, Seg.lit "."]
  cap := [Seg.plus isWordCh, Seg.alts ["Client", "Service", "Lambda", "Authority"]]
  post := [Seg.star isSpaceCh, Seg.lit ";"]

/-- `/import\s+[\w.]+\.(\w+(?:Client|Service|Lambda|Authority|Resource))\s*;/g`
(library copy, with the extra `Resource` alternative). -/
def importPatLib : Pat where
  pre := [Seg.lit "import", Seg.plus isSpaceCh, Seg.plus isWordDotCh, Seg.lit "."]
  cap := [Seg.plus isWordCh, Seg.alts ["Client", "Service", "Lambda", "Authority", "Resource"]]
  post := [Seg.star isSpaceCh, Seg.lit ";"]

/-- `/from\s+[\w.]+\s+import\s+(\w+(?:Client|Service))/g` (Python rule). -/
def pythonImportPat : Pat where
  pre := [Seg.lit "from", Seg.plus isSpaceCh, Seg.plus isWordDotCh,
          Seg.plus isSpaceCh, Seg.lit "import", Seg.plus isSpaceCh]
  cap := [Seg.plus isWordCh, Seg.alts ["Client", "Service"]]
  post := []

/-- `/import\s+\{?\s*(\w+(?:Client|Service))\s*\}?\s+from/g` (TS/JS rule). -/
def jsImportPat : Pat where
  pre := [Seg.lit "import", Seg.plus isSpaceCh, Seg.opt '{', Seg.star isSpaceCh]
  cap := [Seg.plus isWordCh, Seg.alts ["Client", "Service"]]
  post := [Seg.star isSpaceCh, Seg.opt '}', Seg.plus isSpaceCh, Seg.lit "from"]

/-! ## Data model (`interface CodeFile`, `Dependency`, `ServiceAnalysis`) -/

/-- `confidence: "high" | "medium" | "low"`. -/
inductive Confidence where
  | high
  | medium
  | low
deriving DecidableEq

/-- `source: "client_class" | "config" | "import" | "di"`. -/
inductive DepSource where
  | client_class
  | config
  | imp
  | di
deriving DecidableEq

structure Dependency where
  serviceName : String
  source : DepSource
  confidence : Confidence
  evidence : String
deriving DecidableEq

structure CodeFile where
  name : String
  path : String
  content : String
  language : String
  size : Nat
deriving DecidableEq

structure ServiceAnalysis where
  serviceName : String
  dependencies : List Dependency
deriving DecidableEq

/-- `confidenceRank = { high: 3, medium: 2, low: 1 }`. -/
def confidenceRank : Confidence → Nat
  | Confidence.high => 3
  | Confidence.medium => 2
  | Confidence.low => 1

/-! ## Name normalization and validation -/

/-- `clientClass.replace(/Client$/, "").replace(/ServiceClient$/, "")`. -/
def normClientService (s : String) : String :=
  replaceSuffixOnce "ServiceClient" (replaceSuffixOnce "Client" s)

/-- library import rule: additionally `.replace(/Resource$/, "")`. -/
def normClientServiceResource (s : String) : String :=
  replaceSuffixOnce "Resource" (normClientService s)

/-- `function isValidServiceName(name)` (library copy, lines 792–820). -/
def isValidServiceName (name : String) : Bool :=
  decide (2 < name.length) && decide (name.length < 100) &&
  (match name.data with
    | [] => false
    | c :: _ => isUpperAscii c) &&
  !(["String", "Integer", "Boolean", "Object", "List", "Map", "Set", "Array",
     "Http", "Rest", "Json", "Xml", "Builder"].contains name) &&
  !strEndsWith name "Builder" &&
  !strEndsWith name "Factory" &&
  !strEndsWith name "Utils" &&
  !strEndsWith name "Helper"

/-! ## Extraction rules -/

/-- Pattern 1 of `extractJavaDependencies` (library copy): `@Provides` methods. -/
def javaProvidesDeps (file : CodeFile) : List Dependency :=
  (execAll providesPat file.content).filterMap (fun clientClass =>
    let serviceName := normClientService clientClass
    if isValidServiceName serviceName then
      some { serviceName, source := DepSource.client_class, confidence := Confidence.high,
             evidence := "Found in " ++ file.name ++ ": @Provides " ++ clientClass }
    else none)

/-- Pattern 2 of `extractJavaDependencies` (library copy): `ClientBuilder`. -/
def javaBuilderDeps (file : CodeFile) : List Dependency :=
  (execAll clientBuilderPat file.content).filterMap (fun clientClass =>
    let serviceName := replaceSuffixOnce "Client" clientClass
    if isValidServiceName serviceName then
      some { serviceName, source := DepSource.client_class, confidence := Confidence.high,
             evidence := "Found in " ++ file.name ++ ": ClientBuilder.remoteOf(" ++ clientClass ++ ")" }
    else none)

/-- Pattern 3 of `extractJavaDependencies` (library copy): import statements. -/
def javaImportDeps (file : CodeFile) : List Dependency :=
  (execAll importPatLib file.content).filterMap (fun importedClass =>
    let serviceName := normClientServiceResource importedClass
    if isValidServiceName serviceName then
      some { serviceName, source := DepSource.imp, confidence := Confidence.medium,
             evidence := "Found in " ++ file.name ++ ": import " ++ importedClass }
    else none)

/-- `function extractJavaDependencies(file)` (library copy, lines 671–733). -/
def extractJavaDependencies (file : CodeFile) : List Dependency :=
  javaProvidesDeps file ++ javaBuilderDeps file ++ javaImportDeps file

/-- `function extractPythonDependencies(file)` (library copy, lines 738–760). -/
def extractPythonDependencies (file : CodeFile) : List Dependency :=
  (execAll pythonImportPat file.content).filterMap (fun clientClass =>
    let serviceName := replaceSuffixOnce "Client" clientClass
    if isValidServiceName serviceName then
      some { serviceName, source := DepSource.imp, confidence := Confidence.high,
             evidence := "Found in " ++ file.name ++ ": import " ++ clientClass }
    else none)

/-- `function extractJavaScriptDependencies(file)` (library copy, lines 765–787). -/
def extractJavaScriptDependencies (file : CodeFile) : List Dependency :=
  (execAll jsImportPat file.content).filterMap (fun clientClass =>
    let serviceName := replaceSuffixOnce "Client" clientClass
    if isValidServiceName serviceName then
      some { serviceName, source := DepSource.imp, confidence := Confidence.high,
             evidence := "Found in " ++ file.name ++ ": import " ++ clientClass }
    else none)

/-- `function extractDependencies(files, language)` (library copy, lines 642–666). -/
def extractDependencies (files : List CodeFile) (language : String) : List Dependency :=
  files.flatMap (fun file =>
    (if file.language == "java" || language == "java" then extractJavaDependencies file else []) ++
    (if file.language == "python" || language == "python" then extractPythonDependencies file else []) ++
    (if file.language == "typescript" || file.language == "javascript" then
      extractJavaScriptDependencies file else []))

/-! ## Service-name inference (both copies) -/

/-- Common `skipNames` check: `part.toLowerCase().includes(skip)` over the fixed list. -/
def skipPart (part : String) : Bool :=
  ["src", "main", "java", "app", "lib", "pkg", "com", "amazon", "internal"].any
    (fun skip => strIncludes (strToLower part) skip)

/-- `/[A-Z]/.test(part)`. -/
def hasUpperAscii (part : String) : Bool := part.data.any isUpperAscii

/-- Qualifying condition of the CLI copy (lines 57–62). -/
def partCondCli (part : String) : Bool :=
  decide (3 < part.length) &&
  (hasUpperAscii part || strIncludes part "Service" || strIncludes part "Gateway")

/-- Qualifying condition of the library copy (lines 564–572): also accepts
`Lambda` / `Api` / `API` substrings. -/
def partCondLib (part : String) : Bool :=
  decide (3 < part.length) &&
  (hasUpperAscii part || strIncludes part "Service" || strIncludes part "Gateway" ||
   strIncludes part "Lambda" || strIncludes part "Api" || strIncludes part "API")

/-- The backward loop over path segments (`for i = parts.length-1 … 0`
with continue/return) returns the first segment from the end that is
not skipped and qualifies. -/
def inferFromParts (cond : String → Bool) (parts : List String) : String :=
  match parts.reverse.find? (fun p => !skipPart p && cond p) with
  | some p => p
  | none =>
      match (parts.filter (fun p => p ≠ "" && p ≠ "src")).head? with
      | some p => p
      | none => "UnknownService"

/-- `function inferServiceName(files)` (CLI copy, lines 35–68). -/
def inferServiceNameCli (files : List CodeFile) : String :=
  match files with
  | [] => "UnknownService"
  | f :: _ => inferFromParts partCondCli (splitOnSlash f.path)

/-- `function inferServiceName(files)` (library copy, lines 537–578). -/
def inferServiceNameLib (files : List CodeFile) : String :=
  match files with
  | [] => "UnknownService"
  | f :: _ => inferFromParts partCondLib (splitOnSlash f.path)

/-! ## Primary-language detection (library copy, lines 583–592)

`Object.entries` of the count record lists languages in first-seen
order; `sort((a,b) => b[1]-a[1])` is a stable sort (ES2019) by count
descending, so `sorted[0]` is the first-seen language of maximal count.
The stable sort is modelled with `List.insertionSort`. -/

/-- Build `langCounts` as an association list in first-seen key order. -/
def bumpLang (counts : List (String × Nat)) (lang : String) : List (String × Nat) :=
  match counts with
  | [] => [(lang, 1)]
  | (l, n) :: rest => if l == lang then (l, n + 1) :: rest else (l, n) :: bumpLang rest lang

def detectPrimaryLanguage (files : List CodeFile) : String :=
  let langCounts := files.foldl (fun acc f => bumpLang acc f.language) []
  let sorted := List.insertionSort (fun a b : String × Nat => b.2 ≤ a.2) langCounts
  match sorted.head? with
  | some e => e.1
  | none => "unknown"

/-! ## Key-file scorer (library copy, lines 597–637) -/

/-- The additive score of `selectKeyFiles` for one file. -/
def fileScore (file : CodeFile) : Nat :=
  let path := strToLower file.path
  let name := strToLower file.name
  let preview := String.mk ((file.content.data.take 3000).map Char.toLower)
  (if strIncludes path "/module/" then 15 else 0) +
  (if strIncludes path "/config/" then 12 else 0) +
  (if strIncludes path "/accessor/" then 10 else 0) +
  (if strIncludes path "/client/" then 8 else 0) +
  (if strIncludes name "clientmodule" then 20 else 0) +
  (if strIncludes name "client" && strIncludes name "config" then 15 else 0) +
  (if strEndsWith name "module.java" then 15 else 0) +
  (if strEndsWith name "config.java" then 12 else 0) +
  (if strIncludes preview "@provides" then 25 else 0) +
  (if strIncludes preview "@bean" then 25 else 0) +
  (if strIncludes preview "clientbuilder" then 20 else 0) +
  (if strIncludes preview "client;" then 5 else 0) +
  (if 500 < file.size && file.size < 100000 then 3 else 0)

/-- Stable descending sort by score ≡ total sort by (score desc, position asc);
`Array.prototype.sort` is stable, so the enumerated form is the faithful model. -/
def keyFileOrder (a b : Nat × CodeFile) : Prop :=
  fileScore b.2 < fileScore a.2 ∨ (fileScore a.2 = fileScore b.2 ∧ a.1 ≤ b.1)

instance : DecidableRel keyFileOrder := fun a b => by
  unfold keyFileOrder; infer_instance

/-- Enumerated `selectKeyFiles`: scored entries (with original positions),
stably sorted by score descending, truncated to the top 15. -/
def selectKeyFilesE (files : List CodeFile) : List (Nat × CodeFile) :=
  (List.insertionSort keyFileOrder
    (files.enum.filter (fun p => 0 < fileScore p.2))).take 15

/-- `function selectKeyFiles(files, _language)` (library copy, lines 597–637). -/
def selectKeyFiles (files : List CodeFile) (_language : String) : List CodeFile :=
  (selectKeyFilesE files).map Prod.snd

/-! ## Deduplication and sorting -/

/-- `Map.set` semantics on an insertion-ordered association list: replace
in place when the key exists, append otherwise. -/
def mapSet (m : List Dependency) (d : Dependency) : List Dependency :=
  match m with
  | [] => [d]
  | e :: rest => if e.serviceName == d.serviceName then d :: rest else e :: mapSet rest d

/-- Lookup by `serviceName` (`serviceMap.get`). -/
def mapGet (m : List Dependency) (name : String) : Option Dependency :=
  m.find? (fun e => e.serviceName == name)

/-- One step of the library dedup loop (lines 828–843): keep the record
with the strictly higher confidence rank. -/
def libDedupStep (m : List Dependency) (d : Dependency) : List Dependency :=
  match mapGet m d.serviceName with
  | none => mapSet m d
  | some existing =>
      if confidenceRank existing.confidence < confidenceRank d.confidence then mapSet m d else m

/-- One step of the CLI inline dedup loop (lines 131–141): replace only
when the new record is `high` and the existing one is not. -/
def cliDedupStep (m : List Dependency) (d : Dependency) : List Dependency :=
  match mapGet m d.serviceName with
  | none => mapSet m d
  | some existing =>
      if d.confidence == Confidence.high && !(existing.confidence == Confidence.high) then
        mapSet m d
      else m

/-- `Array.from(serviceMap.values())` after the library dedup loop. -/
def libDedup (deps : List Dependency) : List Dependency := deps.foldl libDedupStep []

/-- `Array.from(serviceMap.values())` after the CLI inline dedup loop. -/
def cliDedup (deps : List Dependency) : List Dependency := deps.foldl cliDedupStep []

/-- The maximal confidence rank among the candidates that carry a given
canonical name (`0` when the name never occurs). -/
def maxRank (name : String) (deps : List Dependency) : Nat :=
  deps.foldr
    (fun d a => if d.serviceName == name then max (confidenceRank d.confidence) a else a) 0

/-- The confidence rank currently stored in the map for a name
(`0` when absent). -/
def lookupRank (m : List Dependency) (name : String) : Nat :=
  match mapGet m name with
  | some e => confidenceRank e.confidence
  | none => 0

/-- `serviceMap.has(name)` on the association-list model. -/
def hasName (m : List Dependency) (name : String) : Bool :=
  m.any (fun e => e.serviceName == name)

/-- The final `.sort((a, b) => a.serviceName.localeCompare(b.serviceName))`:
`localeCompare` is a host-collation-dependent builtin, taken here as the
explicit collator parameter `lc`; `Array.prototype.sort` with a
comparator is stable, modelled by `List.insertionSort` with
`lc a b ≤ 0` as the "may precede" relation. -/
def depSortWith (lc : String → String → Int) (deps : List Dependency) : List Dependency :=
  List.insertionSort (fun a b => lc a.serviceName b.serviceName ≤ 0) deps

/-- `function deduplicateAndClean(dependencies)` (library copy, lines 825–848),
with the collator explicit. -/
def deduplicateAndClean (lc : String → String → Int) (deps : List Dependency) : List Dependency :=
  depSortWith lc (libDedup deps)

/-- Code-point lexicographic strict order on character lists. -/
def listCharLt : List Char → List Char → Bool
  | [], [] => false
  | [], _ :: _ => true
  | _ :: _, [] => false
  | a :: as, b :: bs => if a < b then true else if b < a then false else listCharLt as bs

/-- Code-point lexicographic strict order on strings. -/
def codePointLt (a b : String) : Bool := listCharLt a.data b.data

/-- The simple code-point collator: `-1 / 0 / 1` by the code-point
lexicographic order on strings. -/
def codePointCmp (a b : String) : Int :=
  if codePointLt a b then -1 else if codePointLt b a then 1 else 0

/-! ## The two pipelines -/

/-- Candidate extraction of the CLI copy of `analyzeServiceDependencies`
(lines 74–129): Java-language files only, three regex rules, guarded by
the length-only check `depName.length > 2 && depName.length < 100`. -/
def cliJavaExtract (file : CodeFile) : List Dependency :=
  ((execAll providesPat file.content).filterMap (fun clientClass =>
    let depName := normClientService clientClass
    if 2 < depName.length && depName.length < 100 then
      some { serviceName := depName, source := DepSource.client_class,
             confidence := Confidence.high,
             evidence := "Found in " ++ file.name ++ ": @Provides " ++ clientClass }
    else none)) ++
  ((execAll clientBuilderPat file.content).filterMap (fun clientClass =>
    let depName := replaceSuffixOnce "Client" clientClass
    if 2 < depName.length && depName.length < 100 then
      some { serviceName := depName, source := DepSource.client_class,
             confidence := Confidence.high,
             evidence := "Found in " ++ file.name ++ ": ClientBuilder.remoteOf(" ++ clientClass ++ ")" }
    else none)) ++
  ((execAll importPatCli file.content).filterMap (fun importedClass =>
    let depName := normClientService importedClass
    if 2 < depName.length && depName.length < 100 then
      some { serviceName := depName, source := DepSource.imp,
             confidence := Confidence.medium,
             evidence := "Found in " ++ file.name ++ ": import " ++ importedClass }
    else none))

/-- `function analyzeServiceDependencies(files)` — CLI copy (lines 70–149). -/
def analyzeServiceDependenciesCli (lc : String → String → Int)
    (files : List CodeFile) : ServiceAnalysis where
  serviceName := inferServiceNameCli files
  dependencies :=
    depSortWith lc (cliDedup (files.flatMap (fun file =>
      if file.language == "java" then cliJavaExtract file else [])))

/-- `export function analyzeServiceDependencies(files)` — library copy
(lines 499–532). -/
def analyzeServiceDependenciesLib (lc : String → String → Int)
    (files : List CodeFile) : ServiceAnalysis where
  serviceName := inferServiceNameLib files
  dependencies :=
    let language := detectPrimaryLanguage files
    let keyFiles := selectKeyFiles files language
    deduplicateAndClean lc (extractDependencies keyFiles language)

/-! ## File walker (`scanDirectory`, CLI, lines 232–282)

The filesystem is modelled as an inductive tree of named entries; the
walker's pure decision logic (ignore set, extension allow-list, size
filters, relative-path construction) is transcribed from the source.
-/

/-- `const IGNORE_DIRS = [...]` (CLI copy, lines 204–220; 15 names). -/
def IGNORE_DIRS : List String :=
  ["node_modules", ".git", ".venv", "venv", "__pycache__", ".pytest_cache",
   "dist", "build", "target", ".idea", ".vscode", "bin", "obj", ".gradle", "out"]

/-- `const CODE_EXTENSIONS = [...]` (CLI copy, lines 183–201). -/
def CODE_EXTENSIONS : List String :=
  [".java", ".py", ".ts", ".js", ".jsx", ".tsx", ".go", ".cpp", ".c", ".h",
   ".cs", ".rb", ".php", ".swift", ".kt", ".rs", ".scala"]

/-- `CODE_EXTENSIONS.some((ext) => entry.name.endsWith(ext))`. -/
def isCodeFileName (name : String) : Bool :=
  CODE_EXTENSIONS.any (fun ext => strEndsWith name ext)

/-- `function detectLanguage(ext)` (CLI copy, lines 287–306). -/
def detectLanguage (ext : String) : String :=
  match ([(".py", "python"), (".js", "javascript"), (".ts", "typescript"),
          (".jsx", "javascript"), (".tsx", "typescript"), (".java", "java"),
          (".go", "go"), (".cpp", "cpp"), (".c", "c"), (".rb", "ruby"),
          (".php", "php"), (".swift", "swift"), (".kt", "kotlin"),
          (".rs", "rust"), (".cs", "csharp")].find? (fun p => p.1 == ext)) with
  | some p => p.2
  | none => "text"

/-- `entry.name.substring(entry.name.lastIndexOf("."))`; when the name
has no dot, `lastIndexOf` is `-1` and `substring(-1)` yields the whole
name (that case is unreachable after the extension filter). -/
def extOf (name : String) : String :=
  match name.splitOn "." with
  | [] => name
  | [_] => name
  | parts => "." ++ parts.getLastD ""

/-- Relative-path join with forward slashes (`path.relative` results). -/
def joinRel (pre name : String) : String :=
  if pre == "" then name else pre ++ "/" ++ name

/-- A directory tree: the abstraction of the filesystem the walker reads. -/
inductive FsEntry where
  | file (name : String) (size : Nat) (content : String)
  | dir (name : String) (children : List FsEntry)

mutual

/-- One loop iteration of `scanDirectory`: directory entries are skipped
entirely when their name is in `IGNORE_DIRS`, otherwise recursed into;
file entries pass the extension allow-list and the size filters. -/
def scanEntryCli (pre : String) : FsEntry → List CodeFile
  | FsEntry.file name size content =>
      if isCodeFileName name then
        if 5 * 1024 * 1024 < size then []
        else if size == 0 then []
        else [{ name, path := joinRel pre name, content,
                language := detectLanguage (extOf name), size }]
      else []
  | FsEntry.dir name children =>
      if IGNORE_DIRS.contains name then []
      else scanListCli (joinRel pre name) children

/-- `scanDirectory` over a directory's entry list. -/
def scanListCli (pre : String) : List FsEntry → List CodeFile
  | [] => []
  | e :: es => scanEntryCli pre e ++ scanListCli pre es

end

mutual

/-- Remove every directory whose name is in `IGNORE_DIRS`, recursively. -/
def pruneEntry : FsEntry → FsEntry
  | FsEntry.file name size content => FsEntry.file name size content
  | FsEntry.dir name children => FsEntry.dir name (pruneList children)

def pruneList : List FsEntry → List FsEntry
  | [] => []
  | FsEntry.dir name children :: es =>
      if IGNORE_DIRS.contains name then pruneList es
      else FsEntry.dir name (pruneList children) :: pruneList es
  | FsEntry.file name size content :: es =>
      FsEntry.file name size content :: pruneList es

end

/-! ## Upload-side path filter (`code-upload.tsx`, lines 72–95) -/

/-- `const IGNORE_PATTERNS = [...]` (`code-upload.tsx`, lines 73–88;
only 14 names — `"out"` is absent from this copy). -/
def IGNORE_PATTERNS : List String :=
  ["node_modules", ".git", ".venv", "venv", "__pycache__", ".pytest_cache",
   "dist", "build", "target", ".idea", ".vscode", "bin", "obj", ".gradle"]

/-- `const CODE_EXTENSIONS = [...]` (`code-upload.tsx`, lines 44–70). -/
def CODE_EXTENSIONS_UPLOAD : List String :=
  [".py", ".js", ".ts", ".jsx", ".tsx", ".java", ".go", ".cpp", ".c", ".h",
   ".cs", ".rb", ".php", ".swift", ".kt", ".rs", ".scala", ".sh", ".yml",
   ".yaml", ".json", ".xml", ".sql", ".proto", ".gradle"]

/-- `shouldIgnore(path)` (`code-upload.tsx`, lines 90–95). -/
def shouldIgnore (path : String) : Bool :=
  IGNORE_PATTERNS.any (fun pattern =>
    strIncludes path ("/" ++ pattern ++ "/") || strStartsWith path (pattern ++ "/"))

/-- The per-file filter chain of `handleFolderUpload` (`code-upload.tsx`,
lines 133–153): a file is kept as a candidate source iff its path is not
ignored, its name carries a supported extension, and its size is neither
zero nor above the 5 MB per-file ceiling. -/
def folderUploadKeeps (path name : String) (size : Nat) : Bool :=
  !shouldIgnore path &&
  CODE_EXTENSIONS_UPLOAD.any (fun ext => strEndsWith name ext) &&
  !(size == 0) &&
  !(5 * 1024 * 1024 < size)

/-! ## Concrete inputs used by the scenario theorems, witnesses and
counterexamples -/

/-- A collation modelling a default-locale `localeCompare` on ASCII:
letters compare case-insensitively at the primary level (so
`"apple" < "Box"`, as under the Unicode Collation Algorithm), with the
code-point order as tie-break. -/
def localeLikeCmp (a b : String) : Int :=
  if codePointLt (strToLower a) (strToLower b) then -1
  else if codePointLt (strToLower b) (strToLower a) then 1
  else codePointCmp a b

/-- Scenario A content (spec §8). -/
def scenarioAContent : String :=
  "@Provides public XBTBookingMgmtServiceClient getClient() {...}"

/-- A Java `SourceFile` with the Scenario A content and arbitrary
name, path and size. -/
def scenarioFileOf (name path : String) (size : Nat) : CodeFile :=
  { name, path, content := scenarioAContent, language := "java", size }

/-- Scenario A input (spec §8): `ClientModule.java` containing an
`@Provides` method returning `XBTBookingMgmtServiceClient`. -/
def scenarioAFile : CodeFile :=
  scenarioFileOf "ClientModule.java"
    "src/main/java/com/example/BookingGateway/module/ClientModule.java" 62

/-- The observable fields of a dependency (evidence text omitted). -/
def depTriple (d : Dependency) : String × DepSource × Confidence :=
  (d.serviceName, d.source, d.confidence)

/-- The dependency that Scenario A produces. -/
def xbtDep : Dependency where
  serviceName := "XBTBookingMgmtService"
  source := DepSource.client_class
  confidence := Confidence.high
  evidence := "Found in ClientModule.java: @Provides XBTBookingMgmtServiceClient"

/-- A Java file whose only candidate is the stoplisted name `Http`
(from `import com.a.HttpClient;`). -/
def httpImportFile : CodeFile where
  name := "A.java"
  path := "MyThing/A.java"
  content := "import com.a.HttpClient;"
  language := "java"
  size := 24

/-- A low-confidence candidate followed by a medium-confidence candidate
for the same name. -/
def depXLow : Dependency where
  serviceName := "X1a"
  source := DepSource.imp
  confidence := Confidence.low
  evidence := "e1"

def depXMed : Dependency where
  serviceName := "X1a"
  source := DepSource.imp
  confidence := Confidence.medium
  evidence := "e2"

def depApple : Dependency where
  serviceName := "apple"
  source := DepSource.imp
  confidence := Confidence.high
  evidence := "ea"

def depBox : Dependency where
  serviceName := "Box"
  source := DepSource.imp
  confidence := Confidence.high
  evidence := "eb"

/-- Two files agreeing on the first 3000 content characters and on all
other fields, with different content beyond position 3000. -/
def previewTwinF : CodeFile :=
  { name := "F.java", path := "p/F.java",
    content := String.mk (List.replicate 3000 'a' ++ ['X']),
    language := "java", size := 3001 }

def previewTwinG : CodeFile :=
  { name := "F.java", path := "p/F.java",
    content := String.mk (List.replicate 3000 'a' ++ ['Y']),
    language := "java", size := 3001 }

/-- A Python-language file whose text happens to match the Java import
rule (used to exercise primary-language-keyed extraction). -/
def pyFileWithJavaImport : CodeFile :=
  { name := "b.py", path := "Proj/b.py", content := "import com.x.FooClient;",
    language := "python", size := 23 }

/-- A Java-language file whose text matches the Python import rule. -/
def javaFileWithPyImport : CodeFile :=
  { name := "C.java", path := "Proj/C.java",
    content := "from a.b import ZService", language := "java", size := 600 }

def plainJavaFile1 : CodeFile :=
  { name := "D.java", path := "Proj/D.java", content := "class D {}",
    language := "java", size := 10 }

def plainJavaFile2 : CodeFile :=
  { name := "E.java", path := "Proj/E.java", content := "class E {}",
    language := "java", size := 10 }

def plainPyFile1 : CodeFile :=
  { name := "f.py", path := "Proj/f.py", content := "x = 1", language := "python", size := 5 }

def plainPyFile2 : CodeFile :=
  { name := "g.py", path := "Proj/g.py", content := "y = 2", language := "python", size := 5 }

/-- Primary language java; the python-language file is a selected key
file (its preview contains `client;`). -/
def filesPrimaryJava : List CodeFile :=
  [plainJavaFile1, plainJavaFile2, pyFileWithJavaImport]

/-- Primary language python; the java-language file is a selected key
file (its size signal scores it above zero). -/
def filesPrimaryPython : List CodeFile :=
  [plainPyFile1, plainPyFile2, javaFileWithPyImport]

/-- The dependency the Java import rule finds in `pyFileWithJavaImport`. -/
def fooImportDep : Dependency where
  serviceName := "Foo"
  source := DepSource.imp
  confidence := Confidence.medium
  evidence := "Found in b.py: import FooClient"

/-- The dependency the Python import rule finds in `javaFileWithPyImport`. -/
def zServiceDep : Dependency where
  serviceName := "ZService"
  source := DepSource.imp
  confidence := Confidence.high
  evidence := "Found in C.java: import ZService"

/-- A small directory tree with files both inside and outside ignored
directories. -/
def sampleTree : List FsEntry :=
  [FsEntry.file "Main.java" 100 "import com.a.FooClient;",
   FsEntry.dir "node_modules" [FsEntry.file "Dep.java" 50 "import com.a.BarClient;"],
   FsEntry.dir "out" [FsEntry.file "Gen.java" 50 "import com.a.BazClient;"],
   FsEntry.dir "app" [FsEntry.file "x.py" 20 "from a.b import QService"]]

/-! # Theorems -/

/-! ## String helper lemmas -/

theorem isPrefixB_append_self (l r : List Char) : isPrefixB l (l ++ r) = true := by
  induction l with
  | nil => rfl
  | cons a as ih => simp [isPrefixB, ih]

theorem isInfixB_of_isPrefixB (n h : List Char) (hp : isPrefixB n h = true) :
    isInfixB n h = true := by
  cases h with
  | nil => exact hp
  | cons c t =>
      show (isPrefixB n (c :: t) || isInfixB n t) = true
      rw [hp, Bool.true_or]

theorem isInfixB_append_self (a n b : List Char) : isInfixB n (a ++ n ++ b) = true := by
  induction a with
  | nil =>
      exact isInfixB_of_isPrefixB n (n ++ b) (isPrefixB_append_self n b)
  | cons x xs ih =>
      have hstep : isInfixB n ((x :: xs) ++ n ++ b)
          = (isPrefixB n ((x :: xs) ++ n ++ b) || isInfixB n (xs ++ n ++ b)) := rfl
      rw [hstep, ih, Bool.or_true]

theorem any_of_isPrefixB (q : Char → Bool) :
    ∀ (n h : List Char), isPrefixB n h = true → n.any q = true → h.any q = true := by
  intro n
  induction n with
  | nil => intro h _ hq; simp [List.any] at hq
  | cons a as ih =>
      intro h hp hq
      cases h with
      | nil => simp [isPrefixB] at hp
      | cons b bs =>
          simp only [isPrefixB, Bool.and_eq_true, beq_iff_eq] at hp
          obtain ⟨hab, hrest⟩ := hp
          simp only [List.any_cons, Bool.or_eq_true] at hq ⊢
          rcases hq with hqa | hqas
          · exact Or.inl (hab ▸ hqa)
          · exact Or.inr (ih bs hrest hqas)

theorem any_of_isInfixB (q : Char → Bool) (n : List Char) :
    ∀ (h : List Char), isInfixB n h = true → n.any q = true → h.any q = true := by
  intro h
  induction h with
  | nil =>
      intro hi hq
      cases n with
      | nil => simp [List.any] at hq
      | cons a as => simp [isInfixB, isPrefixB] at hi
  | cons c t ih =>
      intro hi hq
      rw [isInfixB, Bool.or_eq_true] at hi
      rcases hi with hp | hi
      · exact any_of_isPrefixB q n (c :: t) hp hq
      · simp only [List.any_cons, Bool.or_eq_true]
        exact Or.inr (ih hi hq)

/-! ## C8: the scorer's content signal is bounded to the first 3000
characters -/

/-- C8: `selectKeyFiles`' score depends on a file's content only via the
first 3000 characters: two files agreeing on name, path, size and the
first 3000 content characters receive equal scores (and in particular
equal candidacy for selection). -/
theorem c8_score_bounded_preview (f g : CodeFile)
    (hname : f.name = g.name) (hpath : f.path = g.path) (hsize : f.size = g.size)
    (hcontent : f.content.data.take 3000 = g.content.data.take 3000) :
    fileScore f = fileScore g := by
  unfold fileScore
  rw [hname, hpath, hsize, hcontent]

/-- Witness for C8: two concrete files differing only at content
position 3000 receive equal scores. -/
theorem c8_score_bounded_preview_witness :
    fileScore previewTwinF = fileScore previewTwinG :=
  c8_score_bounded_preview previewTwinF previewTwinG rfl rfl rfl (by
    show (List.replicate 3000 'a' ++ ['X']).take 3000
        = (List.replicate 3000 'a' ++ ['Y']).take 3000
    rw [List.take_left' (List.length_replicate 3000 'a'),
        List.take_left' (List.length_replicate 3000 'a')])

/-! ## C6: Scenario A -/

/-- A file whose first-3000-character preview contains `@provides`
always scores positively. -/
theorem fileScore_pos_of_provides (f : CodeFile)
    (h : strIncludes (String.mk ((f.content.data.take 3000).map Char.toLower)) "@provides" = true) :
    0 < fileScore f := by
  simp only [fileScore, h, if_true]
  omega

/-- C6: for a Java `SourceFile` with the Scenario A content
`@Provides public XBTBookingMgmtServiceClient getClient() {...}` (any
name, path and size), the Java extraction yields exactly the candidate
`{ serviceName := "XBTBookingMgmtService", source := client_class,
confidence := high }`, and that candidate survives validation,
selection, deduplication and sorting into the final library analysis. -/
theorem c6_scenarioA (name path : String) (size : Nat) :
    (extractJavaDependencies (scenarioFileOf name path size)).map depTriple
      = [("XBTBookingMgmtService", DepSource.client_class, Confidence.high)]
    ∧ (analyzeServiceDependenciesLib codePointCmp
        [scenarioFileOf name path size]).dependencies.map depTriple
      = [("XBTBookingMgmtService", DepSource.client_class, Confidence.high)] := by
  have hprov : execAll providesPat scenarioAContent = ["XBTBookingMgmtServiceClient"] := by decide
  have hbld : execAll clientBuilderPat scenarioAContent = [] := by decide
  have himp : execAll importPatLib scenarioAContent = [] := by decide
  have hnorm : normClientService "XBTBookingMgmtServiceClient" = "XBTBookingMgmtService" := by
    decide
  have hvalid : isValidServiceName "XBTBookingMgmtService" = true := by decide
  have hext : extractJavaDependencies (scenarioFileOf name path size)
      = [{ serviceName := "XBTBookingMgmtService", source := DepSource.client_class,
           confidence := Confidence.high,
           evidence := "Found in " ++ name ++ ": @Provides " ++ "XBTBookingMgmtServiceClient" }] := by
    unfold extractJavaDependencies javaProvidesDeps javaBuilderDeps javaImportDeps
    simp only [scenarioFileOf]
    rw [hprov, hbld, himp]
    simp [hnorm, hvalid]
  constructor
  · rw [hext]
    simp [depTriple]
  · have hpv : strIncludes
        (String.mk (((scenarioFileOf name path size).content.data.take 3000).map Char.toLower))
        "@provides" = true := by
      show strIncludes (String.mk ((scenarioAContent.data.take 3000).map Char.toLower))
          "@provides" = true
      decide
    have hdec : (decide (0 < fileScore (scenarioFileOf name path size))) = true :=
      decide_eq_true (fileScore_pos_of_provides _ hpv)
    have hlang : detectPrimaryLanguage [scenarioFileOf name path size] = "java" := rfl
    have hsel : selectKeyFiles [scenarioFileOf name path size] "java"
        = [scenarioFileOf name path size] := by
      unfold selectKeyFiles selectKeyFilesE
      simp [List.filter_cons, hdec, List.insertionSort, List.orderedInsert]
    have hextD : extractDependencies [scenarioFileOf name path size] "java"
        = extractJavaDependencies (scenarioFileOf name path size) := by
      simp [extractDependencies, scenarioFileOf]
    show (deduplicateAndClean codePointCmp (extractDependencies
        (selectKeyFiles [scenarioFileOf name path size]
          (detectPrimaryLanguage [scenarioFileOf name path size]))
        (detectPrimaryLanguage [scenarioFileOf name path size]))).map depTriple = _
    rw [hlang, hsel, hextD, hext]
    simp [deduplicateAndClean, depSortWith, libDedup, libDedupStep, mapGet, mapSet,
          List.insertionSort, List.orderedInsert, depTriple]

/-! ## Dedup membership machinery -/

theorem mem_mapSet {m : List Dependency} {d e : Dependency} (h : e ∈ mapSet m d) :
    e ∈ m ∨ e = d := by
  induction m with
  | nil =>
      simp [mapSet] at h
      exact Or.inr h
  | cons a rest ih =>
      rw [mapSet] at h
      split at h
      · rcases List.mem_cons.mp h with h1 | h1
        · exact Or.inr h1
        · exact Or.inl (List.mem_cons_of_mem a h1)
      · rcases List.mem_cons.mp h with h1 | h1
        · exact Or.inl (h1 ▸ List.mem_cons_self a rest)
        · rcases ih h1 with h2 | h2
          · exact Or.inl (List.mem_cons_of_mem a h2)
          · exact Or.inr h2

theorem mem_libDedupStep {m : List Dependency} {d e : Dependency}
    (h : e ∈ libDedupStep m d) : e ∈ m ∨ e = d := by
  rw [libDedupStep] at h
  split at h
  · exact mem_mapSet h
  · split at h
    · exact mem_mapSet h
    · exact Or.inl h

theorem mem_cliDedupStep {m : List Dependency} {d e : Dependency}
    (h : e ∈ cliDedupStep m d) : e ∈ m ∨ e = d := by
  rw [cliDedupStep] at h
  split at h
  · exact mem_mapSet h
  · split at h
    · exact mem_mapSet h
    · exact Or.inl h

theorem mem_foldl_dedupStep (step : List Dependency → Dependency → List Dependency)
    (hstep : ∀ m d e, e ∈ step m d → e ∈ m ∨ e = d) :
    ∀ (deps : List Dependency) (m : List Dependency) (e : Dependency),
      e ∈ deps.foldl step m → e ∈ m ∨ e ∈ deps := by
  intro deps
  induction deps with
  | nil => intro m e h; exact Or.inl h
  | cons d rest ih =>
      intro m e h
      rw [List.foldl_cons] at h
      rcases ih (step m d) e h with h1 | h1
      · rcases hstep m d e h1 with h2 | h2
        · exact Or.inl h2
        · exact Or.inr (h2 ▸ List.mem_cons_self d rest)
      · exact Or.inr (List.mem_cons_of_mem d h1)

theorem mem_libDedup {deps : List Dependency} {e : Dependency} (h : e ∈ libDedup deps) :
    e ∈ deps := by
  rcases mem_foldl_dedupStep libDedupStep (fun _ _ _ => mem_libDedupStep) deps [] e h with h1 | h1
  · simp at h1
  · exact h1

theorem mem_cliDedup {deps : List Dependency} {e : Dependency} (h : e ∈ cliDedup deps) :
    e ∈ deps := by
  rcases mem_foldl_dedupStep cliDedupStep (fun _ _ _ => mem_cliDedupStep) deps [] e h with h1 | h1
  · simp at h1
  · exact h1

theorem mem_depSortWith {lc : String → String → Int} {l : List Dependency} {e : Dependency} :
    e ∈ depSortWith lc l ↔ e ∈ l := by
  rw [depSortWith]
  exact List.mem_insertionSort _

/-! ## Per-rule facts -/

theorem mem_javaProvidesDeps {f : CodeFile} {d : Dependency} (h : d ∈ javaProvidesDeps f) :
    isValidServiceName d.serviceName = true ∧ d.confidence = Confidence.high := by
  rw [javaProvidesDeps, List.mem_filterMap] at h
  obtain ⟨c, _, hc⟩ := h
  dsimp only at hc
  split at hc
  · cases hc
    exact ⟨by assumption, rfl⟩
  · cases hc

theorem mem_javaBuilderDeps {f : CodeFile} {d : Dependency} (h : d ∈ javaBuilderDeps f) :
    isValidServiceName d.serviceName = true ∧ d.confidence = Confidence.high := by
  rw [javaBuilderDeps, List.mem_filterMap] at h
  obtain ⟨c, _, hc⟩ := h
  dsimp only at hc
  split at hc
  · cases hc
    exact ⟨by assumption, rfl⟩
  · cases hc

theorem mem_javaImportDeps {f : CodeFile} {d : Dependency} (h : d ∈ javaImportDeps f) :
    isValidServiceName d.serviceName = true ∧ d.confidence = Confidence.medium := by
  rw [javaImportDeps, List.mem_filterMap] at h
  obtain ⟨c, _, hc⟩ := h
  dsimp only at hc
  split at hc
  · cases hc
    exact ⟨by assumption, rfl⟩
  · cases hc

theorem mem_extractPythonDeps {f : CodeFile} {d : Dependency}
    (h : d ∈ extractPythonDependencies f) :
    isValidServiceName d.serviceName = true ∧ d.confidence = Confidence.high := by
  rw [extractPythonDependencies, List.mem_filterMap] at h
  obtain ⟨c, _, hc⟩ := h
  dsimp only at hc
  split at hc
  · cases hc
    exact ⟨by assumption, rfl⟩
  · cases hc

theorem mem_extractJsDeps {f : CodeFile} {d : Dependency}
    (h : d ∈ extractJavaScriptDependencies f) :
    isValidServiceName d.serviceName = true ∧ d.confidence = Confidence.high := by
  rw [extractJavaScriptDependencies, List.mem_filterMap] at h
  obtain ⟨c, _, hc⟩ := h
  dsimp only at hc
  split at hc
  · cases hc
    exact ⟨by assumption, rfl⟩
  · cases hc

theorem mem_extractJavaDeps {f : CodeFile} {d : Dependency}
    (h : d ∈ extractJavaDependencies f) :
    isValidServiceName d.serviceName = true
      ∧ (d.confidence = Confidence.high ∨ d.confidence = Confidence.medium) := by
  rw [extractJavaDependencies] at h
  rcases List.mem_append.mp h with h1 | h1
  · rcases List.mem_append.mp h1 with h2 | h2
    · exact ⟨(mem_javaProvidesDeps h2).1, Or.inl (mem_javaProvidesDeps h2).2⟩
    · exact ⟨(mem_javaBuilderDeps h2).1, Or.inl (mem_javaBuilderDeps h2).2⟩
  · exact ⟨(mem_javaImportDeps h1).1, Or.inr (mem_javaImportDeps h1).2⟩

theorem mem_extractDependencies {files : List CodeFile} {language : String} {d : Dependency}
    (h : d ∈ extractDependencies files language) :
    isValidServiceName d.serviceName = true
      ∧ (d.confidence = Confidence.high ∨ d.confidence = Confidence.medium) := by
  rw [extractDependencies, List.mem_flatMap] at h
  obtain ⟨f, _, hf⟩ := h
  rcases List.mem_append.mp hf with h1 | h1
  · rcases List.mem_append.mp h1 with h2 | h2
    · split at h2
      · exact mem_extractJavaDeps h2
      · cases h2
    · split at h2
      · exact ⟨(mem_extractPythonDeps h2).1, Or.inl (mem_extractPythonDeps h2).2⟩
      · cases h2
  · split at h1
    · exact ⟨(mem_extractJsDeps h1).1, Or.inl (mem_extractJsDeps h1).2⟩
    · cases h1

theorem mem_analyzeLibDeps {lc : String → String → Int} {files : List CodeFile} {d : Dependency}
    (h : d ∈ (analyzeServiceDependenciesLib lc files).dependencies) :
    isValidServiceName d.serviceName = true
      ∧ (d.confidence = Confidence.high ∨ d.confidence = Confidence.medium) := by
  have h1 : d ∈ deduplicateAndClean lc (extractDependencies
      (selectKeyFiles files (detectPrimaryLanguage files)) (detectPrimaryLanguage files)) := h
  rw [deduplicateAndClean] at h1
  exact mem_extractDependencies (mem_libDedup (mem_depSortWith.mp h1))

theorem mem_cliJavaExtract {f : CodeFile} {d : Dependency} (h : d ∈ cliJavaExtract f) :
    d.confidence = Confidence.high ∨ d.confidence = Confidence.medium := by
  rw [cliJavaExtract] at h
  rcases List.mem_append.mp h with h1 | h1
  · rcases List.mem_append.mp h1 with h2 | h2
    · rw [List.mem_filterMap] at h2
      obtain ⟨c, _, hc⟩ := h2
      dsimp only at hc
      split at hc
      · cases hc; exact Or.inl rfl
      · cases hc
    · rw [List.mem_filterMap] at h2
      obtain ⟨c, _, hc⟩ := h2
      dsimp only at hc
      split at hc
      · cases hc; exact Or.inl rfl
      · cases hc
  · rw [List.mem_filterMap] at h1
    obtain ⟨c, _, hc⟩ := h1
    dsimp only at hc
    split at hc
    · cases hc; exact Or.inr rfl
    · cases hc

theorem mem_analyzeCliDeps {lc : String → String → Int} {files : List CodeFile} {d : Dependency}
    (h : d ∈ (analyzeServiceDependenciesCli lc files).dependencies) :
    d.confidence = Confidence.high ∨ d.confidence = Confidence.medium := by
  have h1 : d ∈ files.flatMap (fun file =>
      if file.language == "java" then cliJavaExtract file else []) :=
    mem_cliDedup (mem_depSortWith.mp h)
  rw [List.mem_flatMap] at h1
  obtain ⟨f, _, hf⟩ := h1
  split at hf
  · exact mem_cliJavaExtract hf
  · cases hf


/-! ## C2: validator soundness -/

/-- C2 (amended): validator soundness holds for the library pipeline —
for every name rejected by `isValidServiceName` (stoplist membership,
Builder/Factory/Utils/Helper suffix, length outside 3–99, or no leading
uppercase ASCII letter), no dependency of the library analysis carries
that exact canonical name.  (The CLI copy enforces only the length
bound; see the counterexample.) -/
theorem c2_validator_soundness (lc : String → String → Int) (files : List CodeFile)
    (n : String) (hn : isValidServiceName n = false) :
    ∀ d ∈ (analyzeServiceDependenciesLib lc files).dependencies, d.serviceName ≠ n := by
  intro d hd heq
  have hv := (mem_analyzeLibDeps hd).1
  rw [heq, hn] at hv
  exact Bool.false_ne_true hv

/-- Witness for C2 at a concrete run: the Scenario A analysis contains
`xbtDep`, whose name therefore differs from the stoplisted `"Http"`. -/
theorem c2_validator_soundness_witness : xbtDep.serviceName ≠ "Http" :=
  c2_validator_soundness codePointCmp [scenarioAFile] "Http" (by decide) xbtDep (by decide)

/-- Counterexample for C2 as stated: the CLI copy of
`analyzeServiceDependencies` checks only the length bound, so the
stoplisted canonical name `"Http"` (from `import com.a.HttpClient;`)
appears in its output. -/
theorem c2_counterexample_cli_emits_stoplisted :
    isValidServiceName "Http" = false
    ∧ (analyzeServiceDependenciesCli codePointCmp [httpImportFile]).dependencies.map
        (fun d => d.serviceName) = ["Http"] := by
  constructor
  · decide
  · decide

/-! ## C9: the confidence level `low` is unreachable -/

/-- C9: every candidate produced by any extraction rule carries
confidence `high` or `medium`, and consequently neither the library nor
the CLI analysis ever contains a dependency with confidence `low`. -/
theorem c9_no_low_confidence (lc : String → String → Int) (files : List CodeFile)
    (f : CodeFile) (d : Dependency) :
    (d ∈ extractJavaDependencies f ++ extractPythonDependencies f ++
        extractJavaScriptDependencies f ++ cliJavaExtract f →
      d.confidence = Confidence.high ∨ d.confidence = Confidence.medium)
    ∧ (d ∈ (analyzeServiceDependenciesLib lc files).dependencies →
        d.confidence ≠ Confidence.low)
    ∧ (d ∈ (analyzeServiceDependenciesCli lc files).dependencies →
        d.confidence ≠ Confidence.low) := by
  refine ⟨?_, ?_, ?_⟩
  · intro h
    rcases List.mem_append.mp h with h1 | h1
    · rcases List.mem_append.mp h1 with h2 | h2
      · rcases List.mem_append.mp h2 with h3 | h3
        · exact (mem_extractJavaDeps h3).2
        · exact Or.inl (mem_extractPythonDeps h3).2
      · exact Or.inl (mem_extractJsDeps h2).2
    · exact mem_cliJavaExtract h1
  · intro h
    rcases (mem_analyzeLibDeps h).2 with h1 | h1 <;> rw [h1] <;> decide
  · intro h
    rcases mem_analyzeCliDeps h with h1 | h1 <;> rw [h1] <;> decide

/-- Witness for C9 at a concrete run: the Scenario A dependency is not
`low`-confidence. -/
theorem c9_no_low_confidence_witness : xbtDep.confidence ≠ Confidence.low :=
  (c9_no_low_confidence codePointCmp [scenarioAFile] scenarioAFile xbtDep).2.1 (by decide)

/-! ## C1: dedup map lemmas -/

theorem mapGet_mapSet_self (m : List Dependency) (d : Dependency) :
    mapGet (mapSet m d) d.serviceName = some d := by
  induction m with
  | nil => simp [mapSet, mapGet, List.find?]
  | cons e rest ih =>
      rw [mapSet]
      split
      · simp [mapGet, List.find?]
      · rename_i hne
        rw [mapGet, List.find?]
        rw [Bool.eq_false_iff.mpr hne]
        exact ih

theorem mapGet_mapSet_ne (m : List Dependency) (d : Dependency) (name : String)
    (h : name ≠ d.serviceName) : mapGet (mapSet m d) name = mapGet m name := by
  have hdb : (d.serviceName == name) = false :=
    beq_eq_false_iff_ne.mpr (fun he => h he.symm)
  induction m with
  | nil => simp [mapSet, mapGet, List.find?, hdb]
  | cons e rest ih =>
      rw [mapSet]
      split
      · rename_i heq
        have he : e.serviceName = d.serviceName := beq_iff_eq.mp heq
        rw [mapGet, List.find?, hdb, mapGet, List.find?]
        rw [show (e.serviceName == name) = false from he ▸ hdb]
      · rw [mapGet, List.find?, mapGet, List.find?]
        cases hb : (e.serviceName == name) with
        | true => rfl
        | false => exact ih

theorem hasName_of_mapGet_some {m : List Dependency} {name : String} {e : Dependency}
    (h : mapGet m name = some e) : hasName m name = true := by
  rw [mapGet] at h
  rw [hasName, List.any_eq_true]
  exact ⟨e, List.mem_of_find?_eq_some h,
    List.find?_some (p := fun x : Dependency => x.serviceName == name) h⟩

theorem lookupRank_of_mapGet_none {m : List Dependency} {name : String}
    (h : mapGet m name = none) : lookupRank m name = 0 := by
  rw [lookupRank, h]

theorem lookupRank_of_mapGet_some {m : List Dependency} {name : String} {e : Dependency}
    (h : mapGet m name = some e) : lookupRank m name = confidenceRank e.confidence := by
  rw [lookupRank, h]

theorem lookupRank_mapSet_ne (m : List Dependency) (d : Dependency) (name : String)
    (h : name ≠ d.serviceName) : lookupRank (mapSet m d) name = lookupRank m name := by
  unfold lookupRank
  rw [mapGet_mapSet_ne m d name h]

theorem confidenceRank_le_three (c : Confidence) : confidenceRank c ≤ 3 := by
  cases c <;> decide

theorem confidenceRank_pos (c : Confidence) : 0 < confidenceRank c := by
  cases c <;> decide

theorem libDedupStep_none (m : List Dependency) (d : Dependency)
    (hg : mapGet m d.serviceName = none) : libDedupStep m d = mapSet m d := by
  rw [libDedupStep, hg]

theorem libDedupStep_some (m : List Dependency) (d ex : Dependency)
    (hg : mapGet m d.serviceName = some ex) :
    libDedupStep m d
      = if confidenceRank ex.confidence < confidenceRank d.confidence then mapSet m d else m := by
  rw [libDedupStep, hg]

/-- The library merge step updates the stored rank to the maximum. -/
theorem lookupRank_libDedupStep (m : List Dependency) (d : Dependency) (name : String) :
    lookupRank (libDedupStep m d) name
      = if name = d.serviceName then max (lookupRank m name) (confidenceRank d.confidence)
        else lookupRank m name := by
  cases hg : mapGet m d.serviceName with
  | none =>
      rw [libDedupStep_none m d hg]
      by_cases hname : name = d.serviceName
      · subst hname
        rw [if_pos rfl, lookupRank_of_mapGet_none hg, Nat.zero_max,
            lookupRank_of_mapGet_some (mapGet_mapSet_self m d)]
      · rw [if_neg hname, lookupRank_mapSet_ne m d name hname]
  | some ex =>
      rw [libDedupStep_some m d ex hg]
      by_cases hlt : confidenceRank ex.confidence < confidenceRank d.confidence
      · rw [if_pos hlt]
        by_cases hname : name = d.serviceName
        · subst hname
          rw [if_pos rfl, lookupRank_of_mapGet_some hg,
              lookupRank_of_mapGet_some (mapGet_mapSet_self m d),
              Nat.max_eq_right (Nat.le_of_lt hlt)]
        · rw [if_neg hname, lookupRank_mapSet_ne m d name hname]
      · rw [if_neg hlt]
        by_cases hname : name = d.serviceName
        · subst hname
          rw [if_pos rfl, lookupRank_of_mapGet_some hg,
              Nat.max_eq_left (Nat.le_of_not_lt hlt)]
        · rw [if_neg hname]

theorem maxRank_nil (name : String) : maxRank name [] = 0 := rfl

theorem maxRank_cons (name : String) (d : Dependency) (deps : List Dependency) :
    maxRank name (d :: deps)
      = if d.serviceName = name then max (confidenceRank d.confidence) (maxRank name deps)
        else maxRank name deps := by
  by_cases h : d.serviceName = name
  · rw [if_pos h]
    unfold maxRank
    rw [List.foldr_cons, if_pos (beq_iff_eq.mpr h)]
  · rw [if_neg h]
    unfold maxRank
    rw [List.foldr_cons, if_neg (ne_true_of_eq_false (beq_eq_false_iff_ne.mpr h))]

/-- Folding the library merge over a candidate list accumulates the
maximum rank per name. -/
theorem lookupRank_foldl_lib (deps : List Dependency) :
    ∀ (m : List Dependency) (name : String),
      lookupRank (deps.foldl libDedupStep m) name
        = max (lookupRank m name) (maxRank name deps) := by
  induction deps with
  | nil =>
      intro m name
      rw [List.foldl_nil, maxRank_nil, Nat.max_zero]
  | cons d rest ih =>
      intro m name
      rw [List.foldl_cons, ih, lookupRank_libDedupStep, maxRank_cons]
      by_cases hname : name = d.serviceName
      · rw [if_pos hname, if_pos hname.symm, Nat.max_assoc]
      · rw [if_neg hname, if_neg (fun he => hname he.symm)]
theorem mem_names_mapSet {m : List Dependency} {d : Dependency} {x : String}
    (h : x ∈ (mapSet m d).map (fun e => e.serviceName)) :
    x ∈ m.map (fun e => e.serviceName) ∨ x = d.serviceName := by
  rw [List.mem_map] at h
  obtain ⟨y, hy, hyx⟩ := h
  rcases mem_mapSet hy with h1 | h1
  · exact Or.inl (List.mem_map.mpr ⟨y, h1, hyx⟩)
  · exact Or.inr (hyx ▸ h1 ▸ rfl)

theorem names_nodup_mapSet {m : List Dependency} {d : Dependency}
    (h : (m.map (fun e => e.serviceName)).Nodup) :
    ((mapSet m d).map (fun e => e.serviceName)).Nodup := by
  induction m with
  | nil => simp [mapSet]
  | cons e rest ih =>
      rw [List.map_cons, List.nodup_cons] at h
      obtain ⟨hem, hrest⟩ := h
      rw [mapSet]
      split
      · rename_i heq
        have he : e.serviceName = d.serviceName := beq_iff_eq.mp heq
        rw [List.map_cons, List.nodup_cons]
        exact ⟨fun hc => hem (he ▸ hc), hrest⟩
      · rename_i hne
        rw [List.map_cons, List.nodup_cons]
        refine ⟨fun hc => ?_, ih hrest⟩
        rcases mem_names_mapSet hc with h1 | h1
        · exact hem h1
        · exact hne (beq_iff_eq.mpr h1)

theorem libDedupStep_cases (m : List Dependency) (d : Dependency) :
    libDedupStep m d = mapSet m d
      ∨ (libDedupStep m d = m ∧ hasName m d.serviceName = true) := by
  cases hg : mapGet m d.serviceName with
  | none => exact Or.inl (libDedupStep_none m d hg)
  | some ex =>
      rw [libDedupStep_some m d ex hg]
      split
      · exact Or.inl rfl
      · exact Or.inr ⟨rfl, hasName_of_mapGet_some hg⟩

theorem cliDedupStep_none (m : List Dependency) (d : Dependency)
    (hg : mapGet m d.serviceName = none) : cliDedupStep m d = mapSet m d := by
  rw [cliDedupStep, hg]

theorem cliDedupStep_some (m : List Dependency) (d ex : Dependency)
    (hg : mapGet m d.serviceName = some ex) :
    cliDedupStep m d
      = if d.confidence == Confidence.high && !(ex.confidence == Confidence.high) then
          mapSet m d
        else m := by
  rw [cliDedupStep, hg]

theorem cliDedupStep_cases (m : List Dependency) (d : Dependency) :
    cliDedupStep m d = mapSet m d
      ∨ (cliDedupStep m d = m ∧ hasName m d.serviceName = true) := by
  cases hg : mapGet m d.serviceName with
  | none => exact Or.inl (cliDedupStep_none m d hg)
  | some ex =>
      rw [cliDedupStep_some m d ex hg]
      split
      · exact Or.inl rfl
      · exact Or.inr ⟨rfl, hasName_of_mapGet_some hg⟩

theorem names_nodup_foldl (step : List Dependency → Dependency → List Dependency)
    (hcases : ∀ m d, step m d = mapSet m d ∨ (step m d = m ∧ hasName m d.serviceName = true)) :
    ∀ (deps m : List Dependency), (m.map (fun e => e.serviceName)).Nodup →
      ((deps.foldl step m).map (fun e => e.serviceName)).Nodup := by
  intro deps
  induction deps with
  | nil => intro m h; exact h
  | cons d rest ih =>
      intro m h
      rw [List.foldl_cons]
      refine ih (step m d) ?_
      rcases hcases m d with h1 | ⟨h1, _⟩
      · rw [h1]; exact names_nodup_mapSet h
      · rw [h1]; exact h

theorem mapGet_of_mem_nodup {m : List Dependency} {e : Dependency}
    (hnn : (m.map (fun x => x.serviceName)).Nodup) (he : e ∈ m) :
    mapGet m e.serviceName = some e := by
  induction m with
  | nil => cases he
  | cons a rest ih =>
      rw [List.map_cons, List.nodup_cons] at hnn
      obtain ⟨ham, hrest⟩ := hnn
      rcases List.mem_cons.mp he with h1 | h1
      · subst h1
        rw [mapGet, List.find?, beq_self_eq_true]
      · rw [mapGet, List.find?]
        cases hb : (a.serviceName == e.serviceName) with
        | true =>
            exact absurd (List.mem_map.mpr ⟨e, h1, (beq_iff_eq.mp hb).symm⟩) ham
        | false => exact ih hrest h1

theorem hasName_mapSet (m : List Dependency) (d : Dependency) (name : String) :
    hasName (mapSet m d) name = (hasName m name || (d.serviceName == name)) := by
  induction m with
  | nil => simp [hasName, mapSet]
  | cons e rest ih =>
      rw [mapSet]
      split
      · rename_i heq
        have he : e.serviceName = d.serviceName := beq_iff_eq.mp heq
        simp [hasName, List.any_cons, he, Bool.or_comm, Bool.or_assoc, Bool.or_left_comm,
              Bool.or_self_left]
      · simp only [hasName, List.any_cons] at ih ⊢
        rw [ih, Bool.or_assoc]

theorem hasName_step (step : List Dependency → Dependency → List Dependency)
    (hcases : ∀ m d, step m d = mapSet m d ∨ (step m d = m ∧ hasName m d.serviceName = true)) :
    ∀ (m : List Dependency) (d : Dependency) (name : String),
      hasName (step m d) name = (hasName m name || (d.serviceName == name)) := by
  intro m d name
  rcases hcases m d with h1 | ⟨h1, hhn⟩
  · rw [h1, hasName_mapSet]
  · rw [h1]
    cases hb : (d.serviceName == name) with
    | false => rw [Bool.or_false]
    | true =>
        rw [Bool.or_true]
        have : name = d.serviceName := (beq_iff_eq.mp hb).symm
        rw [this, hhn]

theorem hasName_foldl (step : List Dependency → Dependency → List Dependency)
    (hstep : ∀ m d name, hasName (step m d) name = (hasName m name || (d.serviceName == name))) :
    ∀ (deps m : List Dependency) (name : String),
      hasName (deps.foldl step m) name
        = (hasName m name || deps.any (fun d => d.serviceName == name)) := by
  intro deps
  induction deps with
  | nil => intro m name; simp
  | cons d rest ih =>
      intro m name
      rw [List.foldl_cons, ih, hstep, List.any_cons, Bool.or_assoc]
/-- The CLI merge step also keeps the maximum rank, provided no
`low`-confidence candidate is involved. -/
theorem lookupRank_cliDedupStep (m : List Dependency) (d : Dependency) (name : String)
    (hd : d.confidence ≠ Confidence.low)
    (hm : ∀ x ∈ m, x.confidence ≠ Confidence.low) :
    lookupRank (cliDedupStep m d) name
      = if name = d.serviceName then max (lookupRank m name) (confidenceRank d.confidence)
        else lookupRank m name := by
  cases hg : mapGet m d.serviceName with
  | none =>
      rw [cliDedupStep_none m d hg]
      by_cases hname : name = d.serviceName
      · subst hname
        rw [if_pos rfl, lookupRank_of_mapGet_none hg, Nat.zero_max,
            lookupRank_of_mapGet_some (mapGet_mapSet_self m d)]
      · rw [if_neg hname, lookupRank_mapSet_ne m d name hname]
  | some ex =>
      have hex : ex.confidence ≠ Confidence.low := by
        rw [mapGet] at hg
        exact hm ex (List.mem_of_find?_eq_some hg)
      rw [cliDedupStep_some m d ex hg]
      by_cases hc : (d.confidence == Confidence.high
          && !(ex.confidence == Confidence.high)) = true
      · rw [if_pos hc]
        rw [Bool.and_eq_true, beq_iff_eq] at hc
        by_cases hname : name = d.serviceName
        · subst hname
          rw [if_pos rfl, lookupRank_of_mapGet_some hg,
              lookupRank_of_mapGet_some (mapGet_mapSet_self m d),
              Nat.max_eq_right]
          rw [hc.1]
          exact confidenceRank_le_three ex.confidence
        · rw [if_neg hname, lookupRank_mapSet_ne m d name hname]
      · rw [if_neg hc]
        by_cases hname : name = d.serviceName
        · subst hname
          rw [if_pos rfl, lookupRank_of_mapGet_some hg, Nat.max_eq_left]
          rw [Bool.and_eq_true, not_and] at hc
          cases hdc : d.confidence with
          | low => exact absurd hdc hd
          | high =>
              have h2 := hc (by rw [hdc]; rfl)
              have h3 : ex.confidence = Confidence.high := by simpa using h2
              rw [h3]
          | medium =>
              cases hexc : ex.confidence with
              | low => exact absurd hexc hex
              | high => decide
              | medium => decide
        · rw [if_neg hname]

/-- Folding the CLI merge over a `low`-free candidate list accumulates
the maximum rank per name. -/
theorem lookupRank_foldl_cli (deps : List Dependency)
    (hdeps : ∀ x ∈ deps, x.confidence ≠ Confidence.low) :
    ∀ (m : List Dependency), (∀ x ∈ m, x.confidence ≠ Confidence.low) →
      ∀ (name : String),
      lookupRank (deps.foldl cliDedupStep m) name
        = max (lookupRank m name) (maxRank name deps) := by
  induction deps with
  | nil =>
      intro m _ name
      rw [List.foldl_nil, maxRank_nil, Nat.max_zero]
  | cons d rest ih =>
      intro m hm name
      have hd : d.confidence ≠ Confidence.low := hdeps d (List.mem_cons_self d rest)
      have hrest : ∀ x ∈ rest, x.confidence ≠ Confidence.low :=
        fun x hx => hdeps x (List.mem_cons_of_mem d hx)
      have hm' : ∀ x ∈ cliDedupStep m d, x.confidence ≠ Confidence.low := by
        intro x hx
        rcases mem_cliDedupStep hx with h1 | h1
        · exact hm x h1
        · exact h1 ▸ hd
      rw [List.foldl_cons, ih hrest (cliDedupStep m d) hm' name,
          lookupRank_cliDedupStep m d name hd hm, maxRank_cons]
      by_cases hname : name = d.serviceName
      · rw [if_pos hname, if_pos hname.symm, Nat.max_assoc]
      · rw [if_neg hname, if_neg (fun he => hname he.symm)]
/-! ## C1: the claim theorems -/

/-- C1 (amended): deduplication correctness.  For the library's
`deduplicateAndClean`, on every candidate list: output names are
pairwise distinct, each kept record's confidence rank equals the
maximal rank among same-named candidates, and every candidate name
survives.  The CLI pipeline's inline deduplication satisfies the same
three properties on candidate lists that contain no `low`-confidence
record (the CLI extraction rules emit only `high`/`medium`); on lists
with a `low` record it can keep less than the maximum (see the
counterexample). -/
theorem c1_dedup_max_confidence (lc : String → String → Int) (deps : List Dependency) :
    (((deduplicateAndClean lc deps).map (fun e => e.serviceName)).Nodup
      ∧ (∀ e ∈ deduplicateAndClean lc deps,
          confidenceRank e.confidence = maxRank e.serviceName deps)
      ∧ (∀ d ∈ deps, ∃ e ∈ deduplicateAndClean lc deps, e.serviceName = d.serviceName))
    ∧ ((∀ d ∈ deps, d.confidence ≠ Confidence.low) →
      (((depSortWith lc (cliDedup deps)).map (fun e => e.serviceName)).Nodup
        ∧ (∀ e ∈ depSortWith lc (cliDedup deps),
            confidenceRank e.confidence = maxRank e.serviceName deps)
        ∧ (∀ d ∈ deps, ∃ e ∈ depSortWith lc (cliDedup deps), e.serviceName = d.serviceName))) := by
  have hnnLib : ((libDedup deps).map (fun e => e.serviceName)).Nodup :=
    names_nodup_foldl libDedupStep libDedupStep_cases deps [] (by simp)
  have hnnCli : ((cliDedup deps).map (fun e => e.serviceName)).Nodup :=
    names_nodup_foldl cliDedupStep cliDedupStep_cases deps [] (by simp)
  have hpermLib : List.Perm (depSortWith lc (libDedup deps)) (libDedup deps) :=
    List.perm_insertionSort _ _
  have hpermCli : List.Perm (depSortWith lc (cliDedup deps)) (cliDedup deps) :=
    List.perm_insertionSort _ _
  constructor
  · refine ⟨?_, ?_, ?_⟩
    · exact (List.Perm.nodup_iff (hpermLib.map (fun e => e.serviceName))).mpr hnnLib
    · intro e he
      have he' : e ∈ libDedup deps := mem_depSortWith.mp he
      have hget : mapGet (libDedup deps) e.serviceName = some e :=
        mapGet_of_mem_nodup hnnLib he'
      have hfold : lookupRank (libDedup deps) e.serviceName
          = max (lookupRank [] e.serviceName) (maxRank e.serviceName deps) :=
        lookupRank_foldl_lib deps [] e.serviceName
      rw [lookupRank_of_mapGet_some hget,
          show lookupRank [] e.serviceName = 0 from rfl, Nat.zero_max] at hfold
      exact hfold
    · intro d hd
      have hhn : hasName (libDedup deps) d.serviceName = true := by
        rw [show libDedup deps = deps.foldl libDedupStep [] from rfl,
            hasName_foldl libDedupStep (hasName_step libDedupStep libDedupStep_cases),
            show hasName [] d.serviceName = false from rfl, Bool.false_or]
        exact List.any_eq_true.mpr ⟨d, hd, beq_self_eq_true d.serviceName⟩
      obtain ⟨e, he, heq⟩ := List.any_eq_true.mp hhn
      exact ⟨e, mem_depSortWith.mpr he, beq_iff_eq.mp heq⟩
  · intro hlow
    refine ⟨?_, ?_, ?_⟩
    · exact (List.Perm.nodup_iff (hpermCli.map (fun e => e.serviceName))).mpr hnnCli
    · intro e he
      have he' : e ∈ cliDedup deps := mem_depSortWith.mp he
      have hget : mapGet (cliDedup deps) e.serviceName = some e :=
        mapGet_of_mem_nodup hnnCli he'
      have hfold : lookupRank (cliDedup deps) e.serviceName
          = max (lookupRank [] e.serviceName) (maxRank e.serviceName deps) :=
        lookupRank_foldl_cli deps hlow [] (by intro x hx; cases hx) e.serviceName
      rw [lookupRank_of_mapGet_some hget,
          show lookupRank [] e.serviceName = 0 from rfl, Nat.zero_max] at hfold
      exact hfold
    · intro d hd
      have hhn : hasName (cliDedup deps) d.serviceName = true := by
        rw [show cliDedup deps = deps.foldl cliDedupStep [] from rfl,
            hasName_foldl cliDedupStep (hasName_step cliDedupStep cliDedupStep_cases),
            show hasName [] d.serviceName = false from rfl, Bool.false_or]
        exact List.any_eq_true.mpr ⟨d, hd, beq_self_eq_true d.serviceName⟩
      obtain ⟨e, he, heq⟩ := List.any_eq_true.mp hhn
      exact ⟨e, mem_depSortWith.mpr he, beq_iff_eq.mp heq⟩

/-- Witness for C1: on a concrete `low`-free candidate list both dedup
variants are covered by the theorem. -/
theorem c1_dedup_max_confidence_witness :
    ((depSortWith codePointCmp (cliDedup [depXMed])).map (fun e => e.serviceName)).Nodup
    ∧ ((deduplicateAndClean codePointCmp [depXMed]).map (fun e => e.serviceName)).Nodup :=
  ⟨((c1_dedup_max_confidence codePointCmp [depXMed]).2 (by decide)).1,
   (c1_dedup_max_confidence codePointCmp [depXMed]).1.1⟩

/-- Counterexample for C1 as stated: on the candidate list
`[X1a low, X1a medium]` the CLI inline dedup keeps the `low` record
(rank 1) although the maximal confidence among the candidates for that
name is `medium` (rank 2): the CLI merge promotes only `high`
candidates. -/
theorem c1_counterexample_cli_keeps_low :
    (depSortWith codePointCmp (cliDedup [depXLow, depXMed])).map
        (fun e => confidenceRank e.confidence) = [1]
    ∧ maxRank "X1a" [depXLow, depXMed] = 2 := by
  constructor
  · decide
  · decide

/-! ## C4: the two pipeline copies -/

theorem hasUpper_of_strIncludes {p : String} {s : String}
    (hs : s.data.any isUpperAscii = true) (h : strIncludes p s = true) :
    hasUpperAscii p = true := by
  rw [strIncludes] at h
  rw [hasUpperAscii]
  exact any_of_isInfixB isUpperAscii s.data p.data h hs

/-- The extra `Lambda`/`Api`/`API` disjuncts of the library copy's
qualifying condition are subsumed by the uppercase test, so the two
copies of the condition agree on every path segment. -/
theorem partCond_eq (p : String) : partCondLib p = partCondCli p := by
  cases hA : hasUpperAscii p with
  | true => simp [partCondCli, partCondLib, hA]
  | false =>
      have himp : ∀ s : String, s.data.any isUpperAscii = true → strIncludes p s = false := by
        intro s hs
        cases h : strIncludes p s with
        | false => rfl
        | true => exact absurd (hasUpper_of_strIncludes hs h) (by rw [hA]; decide)
      simp [partCondCli, partCondLib, hA, himp "Lambda" (by decide),
            himp "Api" (by decide), himp "API" (by decide)]

/-- C4 (amended): the CLI and library copies of
`analyzeServiceDependencies` always agree on the inferred service name
(their qualifying conditions are extensionally equal), but they are not
equivalent as pipelines — the dependency sequences differ (see the
counterexample: the library copy applies key-file selection and full
validation, uses the extra `Resource` import alternative and a
rank-based merge, none of which the CLI copy does). -/
theorem c4_serviceName_agreement (lc : String → String → Int) (files : List CodeFile) :
    (analyzeServiceDependenciesCli lc files).serviceName
      = (analyzeServiceDependenciesLib lc files).serviceName := by
  show inferServiceNameCli files = inferServiceNameLib files
  cases files with
  | nil => rfl
  | cons f rest =>
      show inferFromParts partCondCli (splitOnSlash f.path)
          = inferFromParts partCondLib (splitOnSlash f.path)
      rw [funext partCond_eq]

/-- Counterexample for C4 as stated: on a single Java file containing
`import com.a.HttpClient;` the CLI copy reports the dependency `Http`
while the library copy reports none, so the two
`analyzeServiceDependencies` implementations are not equivalent. -/
theorem c4_counterexample_pipelines_differ :
    (analyzeServiceDependenciesCli codePointCmp [httpImportFile]).dependencies.map
        (fun d => d.serviceName) = ["Http"]
    ∧ (analyzeServiceDependenciesLib codePointCmp [httpImportFile]).dependencies = []
    ∧ analyzeServiceDependenciesCli codePointCmp [httpImportFile]
        ≠ analyzeServiceDependenciesLib codePointCmp [httpImportFile] := by
  refine ⟨by decide, by decide, by decide⟩

/-! ## C3: output ordering -/

theorem listCharLt_iff_lt : ∀ as bs : List Char, listCharLt as bs = true ↔ as < bs := by
  intro as
  induction as with
  | nil =>
      intro bs
      cases bs with
      | nil =>
          rw [listCharLt]
          exact iff_of_false (by decide) (fun h => by cases h)
      | cons b bs =>
          rw [listCharLt]
          exact iff_of_true rfl List.Lex.nil
  | cons a as ih =>
      intro bs
      cases bs with
      | nil =>
          rw [listCharLt]
          exact iff_of_false (by decide) (fun h => by cases h)
      | cons b bs =>
          rw [listCharLt]
          by_cases h1 : a < b
          · rw [if_pos h1]
            exact iff_of_true rfl (List.Lex.rel h1)
          · rw [if_neg h1]
            by_cases h2 : b < a
            · rw [if_pos h2]
              refine iff_of_false (by decide) (fun h => ?_)
              cases h with
              | cons h => exact lt_irrefl a h2
              | rel h => exact h1 h
            · rw [if_neg h2]
              have hab : a = b := le_antisymm (le_of_not_lt h2) (le_of_not_lt h1)
              subst hab
              constructor
              · intro h
                exact List.Lex.cons ((ih bs).mp h)
              · intro h
                cases h with
                | cons h => exact (ih bs).mpr h
                | rel h => exact absurd h (lt_irrefl a)

theorem codePointLt_iff_lt (a b : String) : codePointLt a b = true ↔ a < b :=
  (listCharLt_iff_lt a.data b.data).trans String.lt_iff_toList_lt.symm

theorem codePointCmp_le_iff (a b : String) : codePointCmp a b ≤ 0 ↔ a ≤ b := by
  by_cases h1 : codePointLt a b = true
  · rw [codePointCmp, if_pos h1]
    exact iff_of_true (by decide) (le_of_lt ((codePointLt_iff_lt a b).mp h1))
  · by_cases h2 : codePointLt b a = true
    · rw [codePointCmp, if_neg h1, if_pos h2]
      exact iff_of_false (by decide) (not_le.mpr ((codePointLt_iff_lt b a).mp h2))
    · rw [codePointCmp, if_neg h1, if_neg h2]
      refine iff_of_true (by decide) (le_of_not_lt (fun hlt => ?_))
      exact h2 ((codePointLt_iff_lt b a).mpr hlt)

/-- C3 (amended): the final sequence is sorted ascending with respect to
the collator handed to `Array.prototype.sort` — the source passes
`String.prototype.localeCompare`, which depends on the host collation;
under the simple code-point collator the output of
`deduplicateAndClean` is sorted in code-point lexicographic ascending
order of `serviceName`.  (Locale-independence fails: the order changes
with the collator, see the counterexample.) -/
theorem c3_sorted_codepoint (deps : List Dependency) :
    List.Sorted (fun a b : Dependency => a.serviceName ≤ b.serviceName)
      (deduplicateAndClean codePointCmp deps) := by
  haveI htot : IsTotal Dependency
      (fun a b : Dependency => codePointCmp a.serviceName b.serviceName ≤ 0) := by
    constructor
    intro a b
    rcases le_total a.serviceName b.serviceName with h | h
    · exact Or.inl ((codePointCmp_le_iff _ _).mpr h)
    · exact Or.inr ((codePointCmp_le_iff _ _).mpr h)
  haveI htr : IsTrans Dependency
      (fun a b : Dependency => codePointCmp a.serviceName b.serviceName ≤ 0) := by
    constructor
    intro a b c hab hbc
    exact (codePointCmp_le_iff _ _).mpr
      (le_trans ((codePointCmp_le_iff _ _).mp hab) ((codePointCmp_le_iff _ _).mp hbc))
  have hs : List.Sorted
      (fun a b : Dependency => codePointCmp a.serviceName b.serviceName ≤ 0)
      (depSortWith codePointCmp (libDedup deps)) :=
    List.sorted_insertionSort _ _
  exact hs.imp (fun h => (codePointCmp_le_iff _ _).mp h)

/-- Counterexample for C3 as stated: the output order is not
locale-independent and not always code-point order — under a collator
modelling a default-locale `localeCompare` (letters primary,
case-insensitive; `"apple" < "Box"` as in the Unicode Collation
Algorithm) the candidates `apple`, `Box` sort as `[apple, Box]`, while
the code-point collator yields `[Box, apple]`. -/
theorem c3_counterexample_collator_dependent :
    (deduplicateAndClean localeLikeCmp [depApple, depBox]).map (fun e => e.serviceName)
        = ["apple", "Box"]
    ∧ (deduplicateAndClean codePointCmp [depApple, depBox]).map (fun e => e.serviceName)
        = ["Box", "apple"]
    ∧ deduplicateAndClean localeLikeCmp [depApple, depBox]
        ≠ deduplicateAndClean codePointCmp [depApple, depBox] := by
  refine ⟨by decide, by decide, by decide⟩

/-! ## C5: key-file scorer contract -/

theorem keyFileOrder_total : ∀ a b : Nat × CodeFile, keyFileOrder a b ∨ keyFileOrder b a := by
  intro a b
  rw [keyFileOrder, keyFileOrder]
  omega

theorem keyFileOrder_trans :
    ∀ a b c : Nat × CodeFile, keyFileOrder a b → keyFileOrder b c → keyFileOrder a c := by
  intro a b c hab hbc
  rw [keyFileOrder] at hab hbc ⊢
  omega

/-- C5: `selectKeyFiles` returns at most 15 files; every returned file
occurs in the input and has strictly positive additive score; and the
retained scored entries are ordered by strictly descending score with
ties resolved by ascending original position (the stable-sort
semantics of `Array.prototype.sort`), each entry's position pointing
back at that file in the input list. -/
theorem c5_selectKeyFiles_contract (files : List CodeFile) (lang : String) :
    (selectKeyFiles files lang).length ≤ 15
    ∧ (∀ f ∈ selectKeyFiles files lang, 0 < fileScore f ∧ f ∈ files)
    ∧ List.Pairwise (fun a b : Nat × CodeFile =>
        fileScore b.2 < fileScore a.2 ∨ (fileScore a.2 = fileScore b.2 ∧ a.1 < b.1))
        (selectKeyFilesE files)
    ∧ (∀ p ∈ selectKeyFilesE files, files[p.1]? = some p.2) := by
  haveI : IsTotal (Nat × CodeFile) keyFileOrder := ⟨keyFileOrder_total⟩
  haveI : IsTrans (Nat × CodeFile) keyFileOrder := ⟨keyFileOrder_trans⟩
  have hsub : List.Sublist (selectKeyFilesE files)
      (List.insertionSort keyFileOrder
        (files.enum.filter (fun p => 0 < fileScore p.2))) := List.take_sublist _ _
  have hperm : List.Perm
      (List.insertionSort keyFileOrder (files.enum.filter (fun p => 0 < fileScore p.2)))
      (files.enum.filter (fun p => 0 < fileScore p.2)) :=
    List.perm_insertionSort _ _
  have hmemE : ∀ p ∈ selectKeyFilesE files,
      p ∈ files.enum.filter (fun p => 0 < fileScore p.2) := by
    intro p hp
    exact hperm.mem_iff.mp (hsub.subset hp)
  have hmemEnum : ∀ p ∈ selectKeyFilesE files, files[p.1]? = some p.2 := by
    intro p hp
    exact List.mem_enum_iff_getElem?.mp (List.mem_of_mem_filter (hmemE p hp))
  refine ⟨?_, ?_, ?_, hmemEnum⟩
  · rw [selectKeyFiles, List.length_map]
    exact List.length_take_le 15 _
  · intro f hf
    rw [selectKeyFiles, List.mem_map] at hf
    obtain ⟨p, hp, hpf⟩ := hf
    have h1 : 0 < fileScore p.2 :=
      of_decide_eq_true (List.mem_filter.mp (hmemE p hp)).2
    have h2 : files[p.1]? = some p.2 := hmemEnum p hp
    rw [List.getElem?_eq_some] at h2
    obtain ⟨hlt, hget⟩ := h2
    exact ⟨hpf ▸ h1, hpf ▸ hget ▸ List.getElem_mem hlt⟩
  · have hsorted : List.Pairwise keyFileOrder (selectKeyFilesE files) :=
      (List.sorted_insertionSort keyFileOrder _).sublist hsub
    have hfstnodup : ((selectKeyFilesE files).map Prod.fst).Nodup := by
      have h1 : (files.enum.map Prod.fst).Nodup := List.nodup_enum_map_fst files
      have h2 : ((files.enum.filter (fun p => 0 < fileScore p.2)).map Prod.fst).Nodup :=
        h1.sublist ((List.filter_sublist _).map Prod.fst)
      have h3 := (List.Perm.nodup_iff (hperm.map Prod.fst)).mpr h2
      exact h3.sublist (hsub.map Prod.fst)
    have hne : List.Pairwise (fun a b : Nat × CodeFile => a.1 ≠ b.1) (selectKeyFilesE files) :=
      List.pairwise_map.mp hfstnodup
    refine (hsorted.and hne).imp ?_
    intro a b hab
    obtain ⟨h1, h2⟩ := hab
    rcases h1 with h1 | ⟨h1, h1'⟩
    · exact Or.inl h1
    · exact Or.inr ⟨h1, Nat.lt_of_le_of_ne h1' h2⟩

/-- Witness for C5 on a concrete input. -/
theorem c5_selectKeyFiles_contract_witness :
    (selectKeyFiles filesPrimaryJava "java").length ≤ 15
    ∧ (0 < fileScore pyFileWithJavaImport ∧ pyFileWithJavaImport ∈ filesPrimaryJava) :=
  ⟨(c5_selectKeyFiles_contract filesPrimaryJava "java").1,
   (c5_selectKeyFiles_contract filesPrimaryJava "java").2.1 pyFileWithJavaImport (by decide)⟩

/-! ## C10: extraction keys on the repository's primary language -/

theorem java_rule_applied_of_primary (fs : List CodeFile) (lang : String) (f : CodeFile)
    (d : Dependency) (hlang : lang = "java") (hf : f ∈ fs)
    (hd : d ∈ extractJavaDependencies f) : d ∈ extractDependencies fs lang := by
  rw [extractDependencies, List.mem_flatMap]
  refine ⟨f, hf, ?_⟩
  have hc : (f.language == "java" || lang == "java") = true := by
    rw [hlang]
    simp
  rw [if_pos hc]
  exact List.mem_append_left _ (List.mem_append_left _ hd)

theorem python_rule_applied_of_primary (fs : List CodeFile) (lang : String) (f : CodeFile)
    (d : Dependency) (hlang : lang = "python") (hf : f ∈ fs)
    (hd : d ∈ extractPythonDependencies f) : d ∈ extractDependencies fs lang := by
  rw [extractDependencies, List.mem_flatMap]
  refine ⟨f, hf, ?_⟩
  have hc : (f.language == "python" || lang == "python") = true := by
    rw [hlang]
    simp
  rw [if_pos hc]
  exact List.mem_append_left _ (List.mem_append_right _ hd)

/-- C10: in the library pipeline, when the primary (most frequent)
language is `java`, the Java regex rules are applied to every selected
key file regardless of that file's own language tag — any candidate the
Java rules find in such a file reaches the extraction output; and
symmetrically for a primary language of `python`. -/
theorem c10_primary_language_keys_extraction (files : List CodeFile) (f : CodeFile)
    (d : Dependency) :
    (detectPrimaryLanguage files = "java" →
      f ∈ selectKeyFiles files (detectPrimaryLanguage files) →
      d ∈ extractJavaDependencies f →
      d ∈ extractDependencies (selectKeyFiles files (detectPrimaryLanguage files))
          (detectPrimaryLanguage files))
    ∧ (detectPrimaryLanguage files = "python" →
      f ∈ selectKeyFiles files (detectPrimaryLanguage files) →
      d ∈ extractPythonDependencies f →
      d ∈ extractDependencies (selectKeyFiles files (detectPrimaryLanguage files))
          (detectPrimaryLanguage files)) :=
  ⟨fun hl hf hd => java_rule_applied_of_primary _ _ f d hl hf hd,
   fun hl hf hd => python_rule_applied_of_primary _ _ f d hl hf hd⟩

/-- Witness for C10: concrete runs in both directions — a
Python-language key file processed by the Java rules under primary
language `java`, and a Java-language key file processed by the Python
rule under primary language `python`. -/
theorem c10_primary_language_keys_extraction_witness :
    fooImportDep ∈ extractDependencies
        (selectKeyFiles filesPrimaryJava (detectPrimaryLanguage filesPrimaryJava))
        (detectPrimaryLanguage filesPrimaryJava)
    ∧ zServiceDep ∈ extractDependencies
        (selectKeyFiles filesPrimaryPython (detectPrimaryLanguage filesPrimaryPython))
        (detectPrimaryLanguage filesPrimaryPython) :=
  ⟨(c10_primary_language_keys_extraction filesPrimaryJava pyFileWithJavaImport fooImportDep).1
      (by decide) (by decide) (by decide),
   (c10_primary_language_keys_extraction filesPrimaryPython javaFileWithPyImport zServiceDep).2
      (by decide) (by decide) (by decide)⟩

/-! ## C7: ignore-rule completeness -/

/-- Pruning every ignored directory from the tree, at every depth, does
not change the CLI walker's output: files below ignored directories are
never visited and never contribute a record. -/
theorem scanList_prune : ∀ (pre : String) (es : List FsEntry),
    scanListCli pre (pruneList es) = scanListCli pre es
  | _, [] => by simp only [pruneList]
  | pre, FsEntry.file n s c :: es => by
      simp only [pruneList, scanListCli]
      rw [scanList_prune pre es]
  | pre, FsEntry.dir n children :: es => by
      by_cases hig : n ∈ IGNORE_DIRS
      · simp [pruneList, scanListCli, scanEntryCli, hig, scanList_prune pre es]
      · simp [pruneList, scanListCli, scanEntryCli, hig, scanList_prune pre es,
              scanList_prune (joinRel pre n) children]
  termination_by _ es => sizeOf es

/-- C7 (amended): ignore-rule completeness holds for the CLI walker
(pruning every directory in the 15-name `IGNORE_DIRS` set changes
nothing), and the upload-side path filter excludes every file lying
under a directory from its own 14-name `IGNORE_PATTERNS` set — but that
set is missing `"out"`, so the folder-upload variant does not exclude
files under an `out` directory (see the counterexample). -/
theorem c7_ignore_rules (pre rest p : String) (es : List FsEntry) :
    scanListCli pre es = scanListCli pre (pruneList es)
    ∧ (p ∈ IGNORE_PATTERNS →
        shouldIgnore (p ++ "/" ++ rest) = true
        ∧ shouldIgnore (pre ++ "/" ++ p ++ "/" ++ rest) = true) := by
  constructor
  · exact (scanList_prune pre es).symm
  · intro hp
    constructor
    · rw [shouldIgnore, List.any_eq_true]
      refine ⟨p, hp, ?_⟩
      have hsw : strStartsWith (p ++ "/" ++ rest) (p ++ "/") = true := by
        rw [strStartsWith]
        have hd : (p ++ "/" ++ rest).data = (p ++ "/").data ++ rest.data := by
          rw [String.data_append]
        rw [hd]
        exact isPrefixB_append_self _ _
      rw [hsw, Bool.or_true]
    · rw [shouldIgnore, List.any_eq_true]
      refine ⟨p, hp, ?_⟩
      have hinc : strIncludes (pre ++ "/" ++ p ++ "/" ++ rest) ("/" ++ p ++ "/") = true := by
        rw [strIncludes]
        have hd : (pre ++ "/" ++ p ++ "/" ++ rest).data
            = pre.data ++ ("/" ++ p ++ "/").data ++ rest.data := by
          simp only [String.data_append, List.append_assoc]
        rw [hd]
        exact isInfixB_append_self _ _ _
      rw [hinc, Bool.true_or]

/-- Witness for C7: a concrete tree containing `node_modules`, `out` and
`app` directories scans identically to its pruned form, and the
upload-side filter does catch the patterns it knows (`dist` here). -/
theorem c7_ignore_rules_witness :
    scanListCli "" sampleTree = scanListCli "" (pruneList sampleTree)
    ∧ (shouldIgnore ("dist" ++ "/" ++ "x.java") = true
        ∧ shouldIgnore ("proj" ++ "/" ++ "dist" ++ "/" ++ "x.java") = true) :=
  ⟨(c7_ignore_rules "" "x.java" "dist" sampleTree).1,
   (c7_ignore_rules "proj" "x.java" "dist" sampleTree).2 (by decide)⟩

/-- Counterexample for C7 as stated: `"out"` is in the walker's ignore
set but absent from the upload-side `IGNORE_PATTERNS`, so the
folder-upload filter keeps a Java file located under an `out`
directory. -/
theorem c7_counterexample_upload_misses_out :
    "out" ∈ IGNORE_DIRS
    ∧ ("out" ∈ IGNORE_PATTERNS → False)
    ∧ shouldIgnore "out/Main.java" = false
    ∧ shouldIgnore "proj/out/Main.java" = false
    ∧ folderUploadKeeps "out/Main.java" "Main.java" 100 = true := by
  refine ⟨by decide, by decide, by decide, by decide, by decide⟩

end AiDrawIo
